import Mathlib

/-!
Verification of the rubedo dependency pipeline.

Shallow embedding of the TypeScript sources:
  src/src/utils/git.ts        (version classification, hasUpdates, clone/update)
  src/src/utils/build.ts      (copyDependencyAssets, linkDependencyAssets,
                               mergeManifest, buildAddon)
  src/src/commands/build.ts   (buildCommand options)
  src/unnamed/part_001, part_002 (watchCommand rebuild coalescing)

Strings are modelled by Lean String, file paths by lists of path segments,
and the filesystem and git state by explicit record types.  Asynchronous
code is modelled as sequential state passing, which is faithful because the
runtime is a single threaded event loop.
-/

namespace Rubedo

/-! ## Version expression classification

The regular expression dispatch appearing in checkoutVersion,
getVersionDescription and hasUpdates (src/src/utils/git.ts).  The patterns
are anchored on both sides, so a match means the whole string has the shape.
-/

/-- Character class of the regex d (ASCII digits). -/
def isDigitChar (c : Char) : Bool := '0' ≤ c && c ≤ '9'

/-- Character class of the regex [0-9a-f] (lower case hexadecimal). -/
def isHexChar (c : Char) : Bool := isDigitChar c || ('a' ≤ c && c ≤ 'f')

/-- Splits a character list at every occurrence of the separator, keeping
empty parts, like the JavaScript String.split method. -/
def splitOnChar (sep : Char) : List Char → List (List Char)
  | [] => [[]]
  | c :: cs =>
    if c = sep then [] :: splitOnChar sep cs
    else
      match splitOnChar sep cs with
      | [] => [[c]]
      | p :: ps => (c :: p) :: ps

/-- One numeric component of the version pattern: a nonempty digit run. -/
def digitRun (p : List Char) : Bool := !p.isEmpty && p.all isDigitChar

/-- Matches the anchored regex of three dot separated digit runs used for
release tags in checkoutVersion and hasUpdates. -/
def matchesTag (v : String) : Bool :=
  match splitOnChar '.' v.data with
  | [a, b, c] => digitRun a && digitRun b && digitRun c
  | _ => false

/-- Matches the anchored 40 hex digit pattern for full commit hashes. -/
def matchesHex40 (v : String) : Bool :=
  v.data.length = 40 && v.data.all isHexChar

/-- Matches the anchored 7 to 8 hex digit pattern for short commit hashes. -/
def matchesHex78 (v : String) : Bool :=
  (v.data.length = 7 || v.data.length = 8) && v.data.all isHexChar

/-- The four version variants of the resolver. -/
inductive VersionVariant
  | latest
  | tag
  | commit
  | ref
deriving DecidableEq, Repr

/-- Classification of a version expression, in the order the branches are
tested by checkoutVersion and getVersionDescription: the literal latest
first, then the tag pattern, then the full hash pattern, then the short
hash pattern, and anything else is a ref. -/
def classify (v : String) : VersionVariant :=
  if v = "latest" then VersionVariant.latest
  else if matchesTag v then VersionVariant.tag
  else if matchesHex40 v then VersionVariant.commit
  else if matchesHex78 v then VersionVariant.commit
  else VersionVariant.ref

/-! ## Manifest data model (src/src/utils/types.ts)

Fields of the manifest that are never read nor written by the modelled
operations (header, modules, metadata) are carried by the single
format_version field standing for the untouched rest of the record; the
deep copy by JSON round trip in mergeManifest is the identity here.
-/

/-- An entry of the external dependency list of a manifest. -/
structure ManifestDependency where
  module_name : String
  version : String
deriving DecidableEq, Repr

/-- A rubedo dependency descriptor: owner slash name identity, version
expression and optional local override path. -/
structure RubedoDependency where
  module_name : String
  version : String
  localPath : Option String
deriving DecidableEq, Repr

/-- The manifest shape consumed by the pipeline. -/
structure Manifest where
  format_version : Nat
  dependencies : Option (List ManifestDependency)
  capabilities : Option (List String)
  rubedo_dependencies : Option (List RubedoDependency)
deriving DecidableEq, Repr

/-- Modelled from the spec: getRubedoDependencies lives in src/utils/fs.ts
which is not among the sources; the spec says the Manifest Model extracts
the declared dependency list from the project descriptor. -/
def getRubedoDependencies (m : Manifest) : List RubedoDependency :=
  m.rubedo_dependencies.getD []

/-! ## Local module state

State of the deterministic store path of one dependency, together with an
abstract view of its git repository.  The function resolve stands for git
rev-parse, modelled as total because it is only applied to refs that exist
in the repository; path.resolve is modelled as the identity on the already
normalized paths appearing here.
-/

/-- What the store path currently holds. -/
inductive PathState
  | absent
  | realDir
  | link (target : String)
deriving DecidableEq, Repr

/-- Abstract git repository state, read after the fetch performed by
hasUpdates and updateDependency. -/
structure GitRepo where
  tags : List String
  resolve : String → String
  head : String
  currentBranch : String
  behind : Nat

/-- Store path state plus repository state for one dependency. -/
structure ModuleState where
  path : PathState
  repo : GitRepo

/-- Boolean test that the pattern is a prefix of the string, the model of
the JavaScript String.startsWith call in hasUpdates. -/
def startsWithList : List Char → List Char → Bool
  | [], _ => true
  | _ :: _, [] => false
  | p :: ps, c :: cs => p = c && startsWithList ps cs

/-- Enumerates all tags and returns the first one whose resolved commit is
the current head, or none (src/src/utils/git.ts getCurrentTag, second
revision).  Lightweight and annotated tags are both enumerated. -/
def getCurrentTag (g : GitRepo) : Option String :=
  g.tags.find? (fun t => g.resolve t == g.head)

/-- The per variant staleness test executed by hasUpdates after the fetch
succeeds, on a store path that is a real checkout. -/
def hasUpdatesGit (g : GitRepo) (version : String) : Bool :=
  if version = "latest" then decide (0 < g.behind)
  else if matchesTag version then decide (getCurrentTag g ≠ some ("v" ++ version))
  else if matchesHex40 version || matchesHex78 version then
    !(startsWithList version.data g.head.data)
  else if g.currentBranch ≠ version then true
  else decide (0 < g.behind)

/-- Staleness check for one dependency (src/src/utils/git.ts hasUpdates,
second revision): a missing store path is always stale; with a local
override the path must be a link to exactly that override; without one a
leftover link is stale, and otherwise the git test for the version variant
decides. -/
def hasUpdates (dep : RubedoDependency) (st : ModuleState) : Bool :=
  match st.path, dep.localPath with
  | PathState.absent, _ => true
  | PathState.link target, some lp => decide (target ≠ lp)
  | PathState.realDir, some _ => true
  | PathState.link _, none => true
  | PathState.realDir, none => hasUpdatesGit st.repo dep.version

/-! ## Checkout (src/src/utils/git.ts checkoutVersion)

The checkout is modelled by the trace of git operations it performs; the
branch list read of the latest case needs the currently checked out default
branch, passed in as currentBranch.
-/

/-- Git operations issued by checkoutVersion. -/
inductive GitOp
  | branchList
  | pull (remote branch : String)
  | checkout (refName : String)
  | fetch (remote : String)
deriving DecidableEq, Repr

/-- Trace of git operations performed by checkoutVersion: nothing at all
when a local override path is set, otherwise one operation per version
variant in the order of the source branches. -/
def checkoutVersionOps (currentBranch : String) (dep : RubedoDependency) :
    List GitOp :=
  match dep.localPath with
  | some _ => []
  | none =>
    if dep.version = "latest" then
      [GitOp.branchList, GitOp.pull "origin" currentBranch]
    else if matchesTag dep.version then
      [GitOp.checkout ("tags/v" ++ dep.version)]
    else if matchesHex40 dep.version then
      [GitOp.checkout dep.version]
    else if matchesHex78 dep.version then
      [GitOp.checkout dep.version]
    else
      [GitOp.checkout dep.version]

/-- Folds an arbitrary interpretation of git operations over a trace; used
to state that an empty trace leaves any repository state unchanged. -/
def applyOps (f : GitRepo → GitOp → GitRepo) (g : GitRepo)
    (ops : List GitOp) : GitRepo :=
  ops.foldl f g

/-! ## Build orchestrator (src/src/utils/build.ts buildAddon, second
revision, and src/src/commands/build.ts buildCommand)

The orchestrator is modelled as a pure function from the option record, the
manifest and the per module store state to the returned result object and
the trace of stages it executed.  The environment maps a module name to the
state of its deterministic store path.
-/

/-- The object buildAddon resolves with. -/
structure BuildResult where
  success : Bool
  updatesAvailable : Option Bool
  updatedDependencies : Option (List RubedoDependency)
deriving DecidableEq, Repr

/-- The pipeline stages buildAddon can run. -/
inductive Stage
  | checkUpdates
  | compile
  | linkAssets
  | mergeStage
deriving DecidableEq, Repr

/-- Filters the dependency list down to those reported stale, like
checkForUpdates in src/src/utils/git.ts (a dependency is kept exactly when
hasUpdates returns true; hasUpdates catches its own errors). -/
def checkForUpdates (deps : List RubedoDependency)
    (env : String → ModuleState) : List RubedoDependency :=
  deps.filter (fun d => hasUpdates d (env d.module_name))

/-- The orchestration of buildAddon: unless the caller skips it, check all
dependencies for staleness and, if any are stale, return the pending set
without running the compile, link or merge stages; otherwise run compile,
asset link and manifest merge in order. -/
def buildAddon (skipUpdateCheck : Bool) (m : Manifest)
    (env : String → ModuleState) : BuildResult × List Stage :=
  if skipUpdateCheck = false then
    let pending := checkForUpdates (getRubedoDependencies m) env
    if pending.isEmpty then
      ({ success := true, updatesAvailable := none,
         updatedDependencies := none },
       [Stage.checkUpdates, Stage.compile, Stage.linkAssets,
        Stage.mergeStage])
    else
      ({ success := true, updatesAvailable := some true,
         updatedDependencies := some pending },
       [Stage.checkUpdates])
  else
    ({ success := true, updatesAvailable := none,
       updatedDependencies := none },
     [Stage.compile, Stage.linkAssets, Stage.mergeStage])

/-! ## Asset linker (src/src/utils/build.ts copyDependencyAssets, first
revision, and linkDependencyAssets, second revision)

Both linkers walk the fixed asset category list for every dependency and
copy each present category subtree into a destination directory namespaced
by the repository segment of the module name.  Destination paths are
modelled as lists of path segments, the arguments of the path.join call.
A linker returns the trace of performed copies as pairs of category and
destination path, or none when it hits the process exit on a malformed
module name.  The presence oracle answers the pathExists test for a
category directory under the module store path.
-/

/-- Splits a module name at every slash, like the JavaScript split call in
both linkers. -/
def splitSlash (s : String) : List String :=
  (splitOnChar '/' s.data).map List.asString

/-- First destructured segment of the module name (the owner); missing and
empty segments both fail the falsiness guard and are conflated to the
empty string. -/
def orgOf (module_name : String) : String :=
  (splitSlash module_name).headD ""

/-- Second destructured segment of the module name (the repository name),
the namespace segment of every destination path. -/
def repoOf (module_name : String) : String :=
  ((splitSlash module_name).drop 1).headD ""

/-- The fixed asset category enumeration shared by both linkers, in source
order. -/
def assetDirs : List String :=
  ["animation_controllers", "animations", "blocks", "entities",
   "feature_rules", "features", "functions", "items", "loot_tables",
   "recipes", "spawn_rules", "structures", "texts"]

/-- One loop iteration of copyDependencyAssets: skip an absent category,
exit on a malformed module name, skip texts, entities and functions with an
explicit no-op, and otherwise copy to outDir slash category slash
repository name. -/
def copyDirStep (outDir mn dir : String) (present : Bool) :
    Option (List (String × List String)) :=
  if !present then some []
  else if orgOf mn = "" || repoOf mn = "" then none
  else if dir = "texts" then some []
  else if dir = "entities" then some []
  else if dir = "functions" then some []
  else some [(dir, [outDir, dir, repoOf mn])]

/-- The category loop of copyDependencyAssets over an explicit category
list, accumulating the copy trace in order and aborting on the exit. -/
def copyModuleAssetsAux (outDir mn : String) (present : String → Bool) :
    List String → Option (List (String × List String))
  | [] => some []
  | dir :: rest =>
    match copyDirStep outDir mn dir (present dir) with
    | none => none
    | some l =>
      (copyModuleAssetsAux outDir mn present rest).map (fun r => l ++ r)

/-- Copy trace of copyDependencyAssets for one module over the full
category enumeration. -/
def copyModuleAssets (outDir mn : String) (present : String → Bool) :
    Option (List (String × List String)) :=
  copyModuleAssetsAux outDir mn present assetDirs

/-- One loop iteration of linkDependencyAssets: the switch skips only the
texts category before anything else; entities and functions fall through
and are copied like every other category, into cwd slash category slash
repository name. -/
def linkDirStep (root mn dir : String) (present : Bool) :
    Option (List (String × List String)) :=
  if dir = "texts" then some []
  else if !present then some []
  else if orgOf mn = "" || repoOf mn = "" then none
  else some [(dir, [root, dir, repoOf mn])]

/-- The category loop of linkDependencyAssets over an explicit category
list. -/
def linkModuleAssetsAux (root mn : String) (present : String → Bool) :
    List String → Option (List (String × List String))
  | [] => some []
  | dir :: rest =>
    match linkDirStep root mn dir (present dir) with
    | none => none
    | some l =>
      (linkModuleAssetsAux root mn present rest).map (fun r => l ++ r)

/-- Copy trace of linkDependencyAssets for one module over the full
category enumeration. -/
def linkModuleAssets (root mn : String) (present : String → Bool) :
    Option (List (String × List String)) :=
  linkModuleAssetsAux root mn present assetDirs

/-- Copy trace of copyDependencyAssets over the whole dependency list; the
presence oracle takes the module name and the category. -/
def copyDependencyAssets (outDir : String) (deps : List RubedoDependency)
    (present : String → String → Bool) :
    Option (List (String × List String)) :=
  deps.foldl
    (fun acc d =>
      acc.bind (fun l =>
        (copyModuleAssets outDir d.module_name (present d.module_name)).map
          (fun r => l ++ r)))
    (some [])

/-- Copy trace of linkDependencyAssets over the whole dependency list. -/
def linkDependencyAssets (root : String) (deps : List RubedoDependency)
    (present : String → String → Bool) :
    Option (List (String × List String)) :=
  deps.foldl
    (fun acc d =>
      acc.bind (fun l =>
        (linkModuleAssets root d.module_name (present d.module_name)).map
          (fun r => l ++ r)))
    (some [])

/-! ## Manifest merger (src/src/utils/build.ts mergeManifest, identical in
both revisions)

The merger deep copies the host manifest, then walks the dependency
manifests in dependency order, appending every external dependency whose
module name is not already present and every capability not already
present.  The JSON deep copy is the identity on the pure model; a missing
dependencies or capabilities field is none, and a present empty list is
some of the empty list, matching JavaScript truthiness of arrays.  The
argument list holds the manifests of those rubedo dependencies whose
manifest file exists, in dependency order.
-/

/-- The some call testing whether a module name already occurs in the
accumulated dependency list. -/
def hasDepKey (ds : List ManifestDependency) (name : String) : Bool :=
  ds.any (fun d => d.module_name == name)

/-- Appends one external dependency unless its module name is already
present. -/
def addDep (ds : List ManifestDependency) (d : ManifestDependency) :
    List ManifestDependency :=
  if hasDepKey ds d.module_name then ds else ds ++ [d]

/-- The inner dependency loop of mergeManifest. -/
def addDeps (ds : List ManifestDependency) (new : List ManifestDependency) :
    List ManifestDependency :=
  new.foldl addDep ds

/-- Appends one capability unless it is already present. -/
def addCap (cs : List String) (c : String) : List String :=
  if cs.contains c then cs else cs ++ [c]

/-- The inner capability loop of mergeManifest. -/
def addCaps (cs : List String) (new : List String) : List String :=
  new.foldl addCap cs

/-- Processing of one dependency manifest: merge its dependency list, then
its capability list, initializing an absent field with the empty list
exactly when the dependency manifest has the field. -/
def mergeStep (acc : Manifest) (dm : Manifest) : Manifest :=
  let acc1 :=
    match dm.dependencies with
    | none => acc
    | some ds =>
      { acc with dependencies := some (addDeps (acc.dependencies.getD []) ds) }
  match dm.capabilities with
  | none => acc1
  | some cs =>
    { acc1 with capabilities := some (addCaps (acc1.capabilities.getD []) cs) }

/-- The merged manifest mergeManifest writes back: the host manifest folded
through every existing dependency manifest. -/
def mergeManifest (m : Manifest) (depManifests : List Manifest) : Manifest :=
  depManifests.foldl mergeStep m

/-- External dependency list of a manifest, empty when absent. -/
def depsOf (m : Manifest) : List ManifestDependency :=
  m.dependencies.getD []

/-- Capability list of a manifest, empty when absent. -/
def capsOf (m : Manifest) : List String :=
  m.capabilities.getD []

/-- Module name keys of an external dependency list. -/
def depKeys (ds : List ManifestDependency) : List String :=
  ds.map (fun d => d.module_name)

/-- No two entries share a module name. -/
def nodupKeys (ds : List ManifestDependency) : Prop :=
  (depKeys ds).Nodup

/-! ## Module store update and clone (src/src/utils/git.ts, second
revision: cloneDependency, updateDependency, createDirectoryLink)

Both functions are modelled by the trace of filesystem and git effects they
perform together with the resulting store path state.  They recurse into
each other, so both take a fuel argument; none models running out of fuel
and also the process exit on a malformed module name.  The symlink creation
of createDirectoryLink is modelled as succeeding (the junction and copy
fallbacks are platform dependent error paths), and link targets are assumed
to exist so that a link satisfies the pathExists test.
-/

/-- Filesystem and git effects of the module store. -/
inductive FsOp
  | removeDir
  | cloneRepo
  | git (op : GitOp)
  | npmInstall
  | symlinkTo (target : String)
deriving DecidableEq, Repr

/-- Trailing npm install that runs only when the modules directory is
redirected by the environment variable. -/
def npmIf (envDir : Bool) : List FsOp :=
  if envDir then [FsOp.npmInstall] else []

/-- Effect of createDirectoryLink on the store path: a link already
pointing at the override is left alone, anything else present is removed,
and a symlink to the override is created. -/
def createDirectoryLink (lp : String) (p : PathState) :
    PathState × List FsOp :=
  if p = PathState.link lp then (p, [])
  else
    match p with
    | PathState.absent => (PathState.link lp, [FsOp.symlinkTo lp])
    | _ => (PathState.link lp, [FsOp.removeDir, FsOp.symlinkTo lp])

mutual

/-- Effects of cloneDependency: exit on a malformed owner segment, link
when a local override is set, remove a leftover link and clone in its
place, defer to updateDependency when a real checkout already exists, and
otherwise clone, check out the declared version and npm install when the
store is redirected. -/
def cloneDep : Nat → Bool → RubedoDependency → ModuleState →
    Option (PathState × List FsOp)
  | 0, _, _, _ => none
  | Nat.succ fuel, envDir, dep, st =>
    if orgOf dep.module_name = "" then none
    else
      match dep.localPath with
      | some lp => some (createDirectoryLink lp st.path)
      | none =>
        match st.path with
        | PathState.link _ =>
          some (PathState.realDir,
            FsOp.removeDir :: FsOp.cloneRepo ::
              (checkoutVersionOps st.repo.currentBranch dep).map FsOp.git ++
              npmIf envDir)
        | PathState.realDir => updateDep fuel envDir dep st
        | PathState.absent =>
          some (PathState.realDir,
            FsOp.cloneRepo ::
              (checkoutVersionOps st.repo.currentBranch dep).map FsOp.git ++
              npmIf envDir)

/-- Effects of updateDependency: clone when the store path is missing, link
when a local override is set, detect a leftover link, delete it and clone
fresh, and otherwise fetch, check out the declared version and npm install
when the store is redirected. -/
def updateDep : Nat → Bool → RubedoDependency → ModuleState →
    Option (PathState × List FsOp)
  | 0, _, _, _ => none
  | Nat.succ fuel, envDir, dep, st =>
    match st.path with
    | PathState.absent => cloneDep fuel envDir dep st
    | _ =>
      match dep.localPath with
      | some lp => some (createDirectoryLink lp st.path)
      | none =>
        match st.path with
        | PathState.link _ =>
          match cloneDep fuel envDir dep { st with path := PathState.absent } with
          | none => none
          | some (p, ops) => some (p, FsOp.removeDir :: ops)
        | _ =>
          some (st.path,
            FsOp.git (GitOp.fetch "origin") ::
              (checkoutVersionOps st.repo.currentBranch dep).map FsOp.git ++
              npmIf envDir)

end

/-! ## Change watcher (src/unnamed/part_002 rebuild, and part_001 with an
added cooldown window abstracted into event qualification)

The single threaded event loop is modelled as a transition system: a
change event is an invocation of rebuild from the watcher callback, and a
finish event is the completion of the awaited buildAddon call together
with the finally block that clears the flag and immediately reruns rebuild
when one was requested.  The counters record how many rebuilds were started
and finished.
-/

/-- Watcher loop state: the building flag, the rebuild requested flag and
the two counters. -/
structure WatchState where
  building : Bool
  pending : Bool
  started : Nat
  finished : Nat
deriving DecidableEq, Repr

/-- Events of the watcher loop. -/
inductive WatchEvent
  | change
  | finish
deriving DecidableEq, Repr

/-- One transition: a change during a build only sets the pending flag,
a change while idle starts a build, and a finish clears the flag and
immediately starts exactly one more build when the pending flag was set. -/
def watchStep (s : WatchState) (e : WatchEvent) : WatchState :=
  match e with
  | WatchEvent.change =>
    if s.building then { s with pending := true }
    else { s with building := true, started := s.started + 1 }
  | WatchEvent.finish =>
    if s.building then
      if s.pending then
        { s with pending := false, finished := s.finished + 1,
                 building := true, started := s.started + 1 }
      else
        { s with building := false, finished := s.finished + 1 }
    else s

/-- Runs the watcher over an event list. -/
def watchRun (s : WatchState) (es : List WatchEvent) : WatchState :=
  es.foldl watchStep s

/-- Initial watcher state. -/
def watchInit : WatchState :=
  { building := false, pending := false, started := 0, finished := 0 }

/-! ## Lemmas about the classification patterns -/

/-- Splitting never returns an empty part list. -/
theorem splitOnChar_ne_nil (sep : Char) (l : List Char) :
    splitOnChar sep l ≠ [] := by
  induction l with
  | nil => simp [splitOnChar]
  | cons c cs ih =>
    simp only [splitOnChar]
    split
    · simp
    · split
      · simp
      · simp

/-- A split with at least two parts means the separator occurs. -/
theorem mem_of_splitOnChar_length (sep : Char) (l : List Char)
    (h : 2 ≤ (splitOnChar sep l).length) : sep ∈ l := by
  induction l with
  | nil => simp [splitOnChar] at h
  | cons c cs ih =>
    by_cases hc : c = sep
    · subst hc
      exact List.mem_cons_self _ _
    · obtain ⟨p, ps, heq⟩ :=
        List.exists_cons_of_ne_nil (splitOnChar_ne_nil sep cs)
      rw [show splitOnChar sep (c :: cs) = (c :: p) :: ps by
            simp [splitOnChar, hc, heq]] at h
      have h2 : 2 ≤ (splitOnChar sep cs).length := by
        rw [heq]
        simpa using h
      exact List.mem_cons_of_mem _ (ih h2)

/-- A version matching the tag pattern contains a dot. -/
theorem matchesTag_mem_dot (v : String) (h : matchesTag v = true) :
    '.' ∈ v.data := by
  unfold matchesTag at h
  split at h
  · next a b c heq =>
      apply mem_of_splitOnChar_length '.'
      rw [heq]
      simp
  · exact absurd h (by simp)

/-- A version matching either hash pattern is all hexadecimal. -/
theorem matchesHex_all (v : String)
    (h : (matchesHex40 v || matchesHex78 v) = true) :
    v.data.all isHexChar = true := by
  unfold matchesHex40 matchesHex78 at h
  rw [Bool.or_eq_true] at h
  rcases h with h' | h'
  · rw [Bool.and_eq_true] at h'
    exact h'.2
  · rw [Bool.and_eq_true] at h'
    exact h'.2

/-- The tag pattern and the hash patterns exclude each other: a tag match
contains a dot and a hash match is all hexadecimal. -/
theorem tag_commit_disjoint (v : String) :
    ¬(matchesTag v = true ∧ (matchesHex40 v || matchesHex78 v) = true) := by
  rintro ⟨ht, hh⟩
  have hd := matchesTag_mem_dot v ht
  have hx := (List.all_eq_true.mp (matchesHex_all v hh)) '.' hd
  exact absurd hx (by decide)

/-- C2: version classification is total with the four syntactic categories
of the spec, and no version expression satisfies two of the tag, commit and
latest categories (the ref category is their complement by definition). -/
theorem classify_spec (v : String) :
    (matchesTag v = true → classify v = VersionVariant.tag) ∧
    ((matchesHex40 v || matchesHex78 v) = true →
      classify v = VersionVariant.commit) ∧
    (v = "latest" → classify v = VersionVariant.latest) ∧
    (matchesTag v = false → matchesHex40 v = false → matchesHex78 v = false →
      v ≠ "latest" → classify v = VersionVariant.ref) ∧
    ¬(matchesTag v = true ∧ (matchesHex40 v || matchesHex78 v) = true) ∧
    ¬(matchesTag v = true ∧ v = "latest") ∧
    ¬((matchesHex40 v || matchesHex78 v) = true ∧ v = "latest") := by
  refine ⟨?_, ?_, ?_, ?_, tag_commit_disjoint v, ?_, ?_⟩
  · intro ht
    have hne : v ≠ "latest" := by
      intro he
      rw [he] at ht
      exact absurd ht (by decide)
    simp [classify, hne, ht]
  · intro hh
    have hne : v ≠ "latest" := by
      intro he
      rw [he] at hh
      exact absurd hh (by decide)
    have htf : matchesTag v = false := by
      rcases Bool.eq_false_or_eq_true (matchesTag v) with h' | h'
      · exact absurd ⟨h', hh⟩ (tag_commit_disjoint v)
      · exact h'
    rw [Bool.or_eq_true] at hh
    rcases hh with h' | h'
    · simp [classify, hne, htf, h']
    · rcases Bool.eq_false_or_eq_true (matchesHex40 v) with h40 | h40
      · simp [classify, hne, htf, h40, h']
      · simp [classify, hne, htf, h40, h']
  · intro he
    rw [he]
    rfl
  · intro h1 h2 h3 h4
    simp [classify, h1, h2, h3, h4]
  · rintro ⟨ht, he⟩
    rw [he] at ht
    exact absurd ht (by decide)
  · rintro ⟨hh, he⟩
    rw [he] at hh
    exact absurd hh (by decide)

/-- Witness for C2 at concrete version expressions of each category. -/
theorem classify_spec_witness :
    classify "1.2.3" = VersionVariant.tag ∧
    classify "abc1234" = VersionVariant.commit ∧
    classify "latest" = VersionVariant.latest ∧
    classify "main" = VersionVariant.ref :=
  ⟨(classify_spec "1.2.3").1 (by decide),
   (classify_spec "abc1234").2.1 (by decide),
   (classify_spec "latest").2.2.1 rfl,
   (classify_spec "main").2.2.2.1 (by decide) (by decide) (by decide)
     (by decide)⟩

/-! ## Orchestrator guard -/

/-- Sample repository state for concrete witnesses. -/
def sampleRepo : GitRepo :=
  { tags := [], resolve := fun _ => "", head := "", currentBranch := "main",
    behind := 0 }

/-- Sample dependency for concrete witnesses. -/
def sampleDep : RubedoDependency :=
  { module_name := "owner/lib", version := "1.0.0", localPath := none }

/-- Sample manifest declaring one rubedo dependency. -/
def sampleManifest : Manifest :=
  { format_version := 2, dependencies := none, capabilities := none,
    rubedo_dependencies := some [sampleDep] }

/-- Sample environment in which every store path is missing. -/
def sampleEnvAbsent : String → ModuleState :=
  fun _ => { path := PathState.absent, repo := sampleRepo }

/-- A nonempty pending set makes buildAddon return before any further
stage. -/
theorem buildAddon_halts (m : Manifest) (env : String → ModuleState)
    (h : checkForUpdates (getRubedoDependencies m) env ≠ []) :
    buildAddon false m env =
      ({ success := true, updatesAvailable := some true,
         updatedDependencies :=
           some (checkForUpdates (getRubedoDependencies m) env) },
       [Stage.checkUpdates]) := by
  unfold buildAddon
  simp [List.isEmpty_iff, h]

/-- C1: with the skip option absent and at least one stale dependency,
buildAddon returns the pending dependency set and its stage trace is only
the update check: the compile, asset link and manifest merge stages are
never invoked. -/
theorem buildAddon_guard (m : Manifest) (env : String → ModuleState)
    (h : ∃ d ∈ getRubedoDependencies m,
      hasUpdates d (env d.module_name) = true) :
    (buildAddon false m env).1.updatesAvailable = some true ∧
    (buildAddon false m env).1.updatedDependencies =
      some (checkForUpdates (getRubedoDependencies m) env) ∧
    (buildAddon false m env).2 = [Stage.checkUpdates] ∧
    Stage.compile ∉ (buildAddon false m env).2 ∧
    Stage.linkAssets ∉ (buildAddon false m env).2 ∧
    Stage.mergeStage ∉ (buildAddon false m env).2 := by
  obtain ⟨d, hd, hs⟩ := h
  have hne : checkForUpdates (getRubedoDependencies m) env ≠ [] :=
    List.ne_nil_of_mem (List.mem_filter.mpr ⟨hd, hs⟩)
  rw [buildAddon_halts m env hne]
  refine ⟨rfl, rfl, rfl, ?_, ?_, ?_⟩ <;> simp

/-- Witness for C1 on a manifest with one never installed dependency. -/
theorem buildAddon_guard_witness :
    (buildAddon false sampleManifest sampleEnvAbsent).1.updatesAvailable =
      some true ∧
    (buildAddon false sampleManifest sampleEnvAbsent).1.updatedDependencies =
      some (checkForUpdates (getRubedoDependencies sampleManifest)
        sampleEnvAbsent) ∧
    (buildAddon false sampleManifest sampleEnvAbsent).2 =
      [Stage.checkUpdates] ∧
    Stage.compile ∉ (buildAddon false sampleManifest sampleEnvAbsent).2 ∧
    Stage.linkAssets ∉ (buildAddon false sampleManifest sampleEnvAbsent).2 ∧
    Stage.mergeStage ∉ (buildAddon false sampleManifest sampleEnvAbsent).2 :=
  buildAddon_guard sampleManifest sampleEnvAbsent
    ⟨sampleDep, by simp [sampleManifest, getRubedoDependencies], rfl⟩

/-- C9: a dependency whose store path does not exist is always reported
stale by hasUpdates, and therefore a build without the skip option halts
with that dependency in the pending set. -/
theorem hasUpdates_absent_halts :
    (∀ dep st, st.path = PathState.absent → hasUpdates dep st = true) ∧
    (∀ m env d, d ∈ getRubedoDependencies m →
      (env d.module_name).path = PathState.absent →
      d ∈ checkForUpdates (getRubedoDependencies m) env ∧
      (buildAddon false m env).1.updatesAvailable = some true ∧
      (buildAddon false m env).2 = [Stage.checkUpdates]) := by
  have habs : ∀ dep st, st.path = PathState.absent →
      hasUpdates dep st = true := by
    intro dep st h
    rcases st with ⟨p, g⟩
    simp only at h
    subst h
    cases hdep : dep.localPath <;> simp [hasUpdates, hdep]
  refine ⟨habs, ?_⟩
  intro m env d hd hp
  have hs : hasUpdates d (env d.module_name) = true :=
    habs d (env d.module_name) hp
  have hmem : d ∈ checkForUpdates (getRubedoDependencies m) env :=
    List.mem_filter.mpr ⟨hd, hs⟩
  have hne : checkForUpdates (getRubedoDependencies m) env ≠ [] :=
    List.ne_nil_of_mem hmem
  rw [buildAddon_halts m env hne]
  exact ⟨hmem, rfl, rfl⟩

/-- Witness for C9 on the never installed sample dependency. -/
theorem hasUpdates_absent_halts_witness :
    hasUpdates sampleDep
      { path := PathState.absent, repo := sampleRepo } = true ∧
    sampleDep ∈ checkForUpdates (getRubedoDependencies sampleManifest)
      sampleEnvAbsent :=
  ⟨hasUpdates_absent_halts.1 sampleDep
      { path := PathState.absent, repo := sampleRepo } rfl,
   (hasUpdates_absent_halts.2 sampleManifest sampleEnvAbsent sampleDep
      (by simp [sampleManifest, getRubedoDependencies]) rfl).1⟩

/-! ## Checkout with a local override -/

/-- C10: with a local override path set, checkoutVersion performs no git
operation at all, whatever the version expression says, and the repository
state is unchanged under any interpretation of the operations. -/
theorem checkoutVersion_local_noop (dep : RubedoDependency) (lp : String)
    (h : dep.localPath = some lp) :
    (∀ b, checkoutVersionOps b dep = []) ∧
    (∀ b v, checkoutVersionOps b { dep with version := v } = []) ∧
    (∀ f g b, applyOps f g (checkoutVersionOps b dep) = g) := by
  refine ⟨?_, ?_, ?_⟩
  · intro b
    simp [checkoutVersionOps, h]
  · intro b v
    simp [checkoutVersionOps, h]
  · intro f g b
    simp [checkoutVersionOps, h, applyOps]

/-- Witness for C10 on a locally overridden dependency. -/
theorem checkoutVersion_local_noop_witness :
    checkoutVersionOps "main"
      { module_name := "owner/lib", version := "1.2.3",
        localPath := some "/tmp/lib" } = [] ∧
    applyOps (fun g _ => g) sampleRepo
      (checkoutVersionOps "main"
        { module_name := "owner/lib", version := "1.2.3",
          localPath := some "/tmp/lib" }) = sampleRepo :=
  ⟨(checkoutVersion_local_noop _ "/tmp/lib" rfl).1 "main",
   (checkoutVersion_local_noop _ "/tmp/lib" rfl).2.2 _ sampleRepo "main"⟩

/-! ## Watcher coalescing -/

/-- The loop invariant of the watcher: the build in flight count, started
minus finished, is one exactly when the building flag is set and zero
otherwise. -/
def watchInv (s : WatchState) : Prop :=
  (s.building = true → s.started = s.finished + 1) ∧
  (s.building = false → s.started = s.finished)

/-- Every transition preserves the watcher invariant. -/
theorem watchInv_step (s : WatchState) (e : WatchEvent) (h : watchInv s) :
    watchInv (watchStep s e) := by
  rcases s with ⟨b, p, st, fi⟩
  cases e <;> cases b <;> cases p <;>
    simp [watchStep, watchInv] at h ⊢ <;> omega

/-- Running any event list preserves the watcher invariant. -/
theorem watchInv_run (s : WatchState) (es : List WatchEvent)
    (h : watchInv s) : watchInv (watchRun s es) := by
  induction es generalizing s with
  | nil => exact h
  | cons e es ih => exact ih _ (watchInv_step s e h)

/-- Splitting a watcher run at a list append. -/
theorem watchRun_append (s : WatchState) (l1 l2 : List WatchEvent) :
    watchRun s (l1 ++ l2) = watchRun (watchRun s l1) l2 := by
  simp [watchRun, List.foldl_append]

/-- Any positive number of change events during a build only sets the
pending flag and starts nothing. -/
theorem watch_changes_pending (s : WatchState) (hb : s.building = true) :
    ∀ n, watchRun s (List.replicate (n + 1) WatchEvent.change) =
      { s with pending := true } := by
  intro n
  induction n generalizing s with
  | zero => simp [watchRun, List.replicate, watchStep, hb]
  | succ n ih =>
    rw [List.replicate_succ]
    have hstep : watchStep s WatchEvent.change = { s with pending := true } := by
      simp [watchStep, hb]
    calc watchRun s (WatchEvent.change ::
          List.replicate (n + 1) WatchEvent.change)
        = watchRun (watchStep s WatchEvent.change)
            (List.replicate (n + 1) WatchEvent.change) := rfl
      _ = { s with pending := true } := by
          rw [hstep, ih { s with pending := true } hb]

/-- C6: reachable watcher states never have more than one rebuild in
flight, and any positive number of change events arriving while a rebuild
is in flight yields exactly one additional rebuild once the in flight one
completes, after which the watcher is idle again. -/
theorem watcher_coalesces :
    (∀ es, (watchRun watchInit es).started ≤
      (watchRun watchInit es).finished + 1) ∧
    (∀ s n, s.building = true →
      watchRun s (List.replicate (n + 1) WatchEvent.change ++
          [WatchEvent.finish, WatchEvent.finish]) =
        { building := false, pending := false, started := s.started + 1,
          finished := s.finished + 2 }) := by
  constructor
  · intro es
    have h0 : watchInv watchInit := by
      constructor <;> intro h <;> simp [watchInit] at h ⊢
    have h := watchInv_run watchInit es h0
    cases hb : (watchRun watchInit es).building
    · rw [h.2 hb]
      omega
    · rw [h.1 hb]
  · intro s n hb
    rw [watchRun_append, watch_changes_pending s hb n]
    rcases s with ⟨b, p, st, fi⟩
    simp only at hb
    subst hb
    simp [watchRun, watchStep]

/-- Watcher state with one build in flight, for the C6 witness. -/
def sampleBuilding : WatchState :=
  { building := true, pending := false, started := 1, finished := 0 }

/-- Witness for C6: five events while idle start one build; one more event
mid build coalesces to exactly one further build. -/
theorem watcher_coalesces_witness :
    (watchRun watchInit [WatchEvent.change, WatchEvent.change]).started ≤
      (watchRun watchInit [WatchEvent.change, WatchEvent.change]).finished
        + 1 ∧
    watchRun sampleBuilding
      (List.replicate 6 WatchEvent.change ++
        [WatchEvent.finish, WatchEvent.finish]) =
      { building := false, pending := false, started := 2, finished := 2 } :=
  ⟨watcher_coalesces.1 [WatchEvent.change, WatchEvent.change],
   watcher_coalesces.2 sampleBuilding 5 rfl⟩

/-! ## Manifest merger lemmas -/

/-- The key test answers membership in the key list. -/
theorem hasDepKey_iff (ds : List ManifestDependency) (n : String) :
    hasDepKey ds n = true ↔ n ∈ depKeys ds := by
  unfold hasDepKey depKeys
  rw [List.any_eq_true]
  simp only [List.mem_map, beq_iff_eq]

/-- Appending one guarded dependency preserves existing keys. -/
theorem hasDepKey_addDep (ds : List ManifestDependency)
    (d : ManifestDependency) (n : String) (h : hasDepKey ds n = true) :
    hasDepKey (addDep ds d) n = true := by
  unfold addDep
  split
  · exact h
  · rw [hasDepKey_iff] at h ⊢
    simp [depKeys] at h ⊢
    rcases h with ⟨a, ha, he⟩
    exact Or.inl ⟨a, ha, he⟩

/-- After the guarded append the key of the appended dependency is
present. -/
theorem hasDepKey_addDep_self (ds : List ManifestDependency)
    (d : ManifestDependency) :
    hasDepKey (addDep ds d) d.module_name = true := by
  unfold addDep
  split
  · assumption
  · rw [hasDepKey_iff]
    simp [depKeys]

/-- The dependency loop preserves existing keys. -/
theorem hasDepKey_addDeps (ds new : List ManifestDependency) (n : String)
    (h : hasDepKey ds n = true) : hasDepKey (addDeps ds new) n = true := by
  induction new generalizing ds with
  | nil => exact h
  | cons d rest ih => exact ih (addDep ds d) (hasDepKey_addDep ds d n h)

/-- Every key of the processed list is present after the dependency
loop. -/
theorem addDeps_covers (ds new : List ManifestDependency) :
    ∀ d ∈ new, hasDepKey (addDeps ds new) d.module_name = true := by
  induction new generalizing ds with
  | nil => intro d hd; cases hd
  | cons a rest ih =>
    intro d hd
    rcases List.mem_cons.mp hd with he | hm
    · subst he
      exact hasDepKey_addDeps (addDep ds d) rest d.module_name
        (hasDepKey_addDep_self ds d)
    · exact ih (addDep ds a) d hm

/-- The dependency loop is the identity when every processed key is
already present. -/
theorem addDeps_id (ds new : List ManifestDependency)
    (h : ∀ d ∈ new, hasDepKey ds d.module_name = true) :
    addDeps ds new = ds := by
  induction new with
  | nil => rfl
  | cons a rest ih =>
    have ha : addDep ds a = ds := by
      unfold addDep
      rw [if_pos (h a (List.mem_cons_self a rest))]
    show addDeps (addDep ds a) rest = ds
    rw [ha]
    exact ih (fun d hd => h d (List.mem_cons_of_mem a hd))

/-- The dependency loop appends a block of fresh, pairwise distinct
keys. -/
theorem addDeps_decomp (new : List ManifestDependency) :
    ∀ ds, ∃ add, addDeps ds new = ds ++ add ∧ (depKeys add).Nodup ∧
      ∀ a ∈ add, hasDepKey ds a.module_name = false := by
  induction new with
  | nil => exact fun ds => ⟨[], by simp [addDeps], by simp [depKeys], by simp⟩
  | cons d rest ih =>
    intro ds
    by_cases hk : hasDepKey ds d.module_name = true
    · obtain ⟨add, h1, h2, h3⟩ := ih ds
      refine ⟨add, ?_, h2, h3⟩
      show addDeps (addDep ds d) rest = ds ++ add
      rw [show addDep ds d = ds by unfold addDep; rw [if_pos hk]]
      exact h1
    · obtain ⟨add, h1, h2, h3⟩ := ih (ds ++ [d])
      have hstep : addDep ds d = ds ++ [d] := by
        unfold addDep
        rw [if_neg hk]
      refine ⟨d :: add, ?_, ?_, ?_⟩
      · show addDeps (addDep ds d) rest = ds ++ d :: add
        rw [hstep, h1]
        simp
      · simp only [depKeys, List.map_cons, List.nodup_cons]
        refine ⟨?_, h2⟩
        intro hmem
        simp only [depKeys, List.mem_map] at hmem
        rcases hmem with ⟨a, ha, he⟩
        have := h3 a ha
        rw [← Bool.not_eq_true, hasDepKey_iff] at this
        apply this
        rw [he]
        simp [depKeys]
      · intro a ha
        rcases List.mem_cons.mp ha with he | hm
        · subst he
          exact Bool.eq_false_iff.mpr hk
        · have := h3 a hm
          rw [← Bool.not_eq_true, hasDepKey_iff] at this
          rw [← Bool.not_eq_true, hasDepKey_iff]
          intro hmem
          apply this
          simp only [depKeys, List.map_append] at *
          exact List.mem_append_left _ hmem

/-- The dependency loop preserves freedom from duplicate keys. -/
theorem addDeps_nodup (ds new : List ManifestDependency)
    (h : nodupKeys ds) : nodupKeys (addDeps ds new) := by
  obtain ⟨add, h1, h2, h3⟩ := addDeps_decomp new ds
  rw [h1]
  unfold nodupKeys at h ⊢
  rw [show depKeys (ds ++ add) = depKeys ds ++ depKeys add by
        simp [depKeys]]
  rw [List.nodup_append]
  refine ⟨h, h2, ?_⟩
  intro x hx hx2
  simp only [depKeys, List.mem_map] at hx2
  rcases hx2 with ⟨a, ha, he⟩
  have := h3 a ha
  rw [← Bool.not_eq_true, hasDepKey_iff] at this
  apply this
  rw [he]
  exact hx

/-- Membership is preserved by the guarded capability append. -/
theorem mem_addCap (cs : List String) (x c : String) (h : c ∈ cs) :
    c ∈ addCap cs x := by
  unfold addCap
  split
  · exact h
  · exact List.mem_append_left _ h

/-- The appended capability is present after the guarded append. -/
theorem mem_addCap_self (cs : List String) (x : String) :
    x ∈ addCap cs x := by
  unfold addCap
  split
  · next h => simpa using h
  · simp

/-- The capability loop preserves membership. -/
theorem mem_addCaps (cs new : List String) (c : String) (h : c ∈ cs) :
    c ∈ addCaps cs new := by
  induction new generalizing cs with
  | nil => exact h
  | cons x rest ih => exact ih (addCap cs x) (mem_addCap cs x c h)

/-- Every processed capability is present after the capability loop. -/
theorem addCaps_covers (cs new : List String) :
    ∀ c ∈ new, c ∈ addCaps cs new := by
  induction new generalizing cs with
  | nil => intro c hc; cases hc
  | cons x rest ih =>
    intro c hc
    rcases List.mem_cons.mp hc with he | hm
    · subst he
      exact mem_addCaps (addCap cs c) rest c (mem_addCap_self cs c)
    · exact ih (addCap cs x) c hm

/-- The capability loop is the identity when every processed capability is
already present. -/
theorem addCaps_id (cs new : List String)
    (h : ∀ c ∈ new, c ∈ cs) : addCaps cs new = cs := by
  induction new with
  | nil => rfl
  | cons x rest ih =>
    have hx : addCap cs x = cs := by
      unfold addCap
      rw [if_pos (by simpa using h x (List.mem_cons_self x rest))]
    show addCaps (addCap cs x) rest = cs
    rw [hx]
    exact ih (fun c hc => h c (List.mem_cons_of_mem x hc))

/-- The capability loop appends a block of fresh, pairwise distinct
values. -/
theorem addCaps_decomp (new : List String) :
    ∀ cs, ∃ add, addCaps cs new = cs ++ add ∧ add.Nodup ∧
      ∀ c ∈ add, c ∉ cs := by
  induction new with
  | nil => exact fun cs => ⟨[], by simp [addCaps], by simp, by simp⟩
  | cons x rest ih =>
    intro cs
    by_cases hx : x ∈ cs
    · obtain ⟨add, h1, h2, h3⟩ := ih cs
      refine ⟨add, ?_, h2, h3⟩
      show addCaps (addCap cs x) rest = cs ++ add
      rw [show addCap cs x = cs by unfold addCap; rw [if_pos (by simpa using hx)]]
      exact h1
    · obtain ⟨add, h1, h2, h3⟩ := ih (cs ++ [x])
      have hstep : addCap cs x = cs ++ [x] := by
        unfold addCap
        rw [if_neg (by simpa using hx)]
      refine ⟨x :: add, ?_, ?_, ?_⟩
      · show addCaps (addCap cs x) rest = cs ++ x :: add
        rw [hstep, h1]
        simp
      · rw [List.nodup_cons]
        refine ⟨?_, h2⟩
        intro hmem
        exact h3 x hmem (List.mem_append_right _ (by simp))
      · intro c hc
        rcases List.mem_cons.mp hc with he | hm
        · subst he
          exact hx
        · intro hmem
          exact h3 c hm (List.mem_append_left _ hmem)

/-- Dependency list after one merge step. -/
theorem depsOf_mergeStep (m dm : Manifest) :
    depsOf (mergeStep m dm) =
      match dm.dependencies with
      | none => depsOf m
      | some ds => addDeps (depsOf m) ds := by
  unfold mergeStep depsOf
  cases dm.dependencies <;> cases dm.capabilities <;> simp

/-- Capability list after one merge step. -/
theorem capsOf_mergeStep (m dm : Manifest) :
    capsOf (mergeStep m dm) =
      match dm.capabilities with
      | none => capsOf m
      | some cs => addCaps (capsOf m) cs := by
  unfold mergeStep capsOf
  cases dm.dependencies <;> cases dm.capabilities <;> simp

/-- A merge step keeps the dependencies field populated. -/
theorem depsSome_mergeStep (m dm : Manifest)
    (h : m.dependencies.isSome = true) :
    (mergeStep m dm).dependencies.isSome = true := by
  unfold mergeStep
  cases dm.dependencies <;> cases dm.capabilities <;> simp_all

/-- A merge step keeps the capabilities field populated. -/
theorem capsSome_mergeStep (m dm : Manifest)
    (h : m.capabilities.isSome = true) :
    (mergeStep m dm).capabilities.isSome = true := by
  unfold mergeStep
  cases dm.dependencies <;> cases dm.capabilities <;> simp_all

/-- A merge step populates the dependencies field when the processed
manifest has one. -/
theorem depsSome_mergeStep_self (m dm : Manifest) (ds : List ManifestDependency)
    (h : dm.dependencies = some ds) :
    (mergeStep m dm).dependencies.isSome = true := by
  unfold mergeStep
  rw [h]
  cases dm.capabilities <;> simp

/-- A merge step populates the capabilities field when the processed
manifest has one. -/
theorem capsSome_mergeStep_self (m dm : Manifest) (cs : List String)
    (h : dm.capabilities = some cs) :
    (mergeStep m dm).capabilities.isSome = true := by
  unfold mergeStep
  rw [h]
  cases dm.dependencies <;> simp

/-- A manifest covers a dependency manifest when every field the latter
declares is already populated and contained, so that processing it again
adds nothing. -/
def covers (m dm : Manifest) : Prop :=
  (∀ ds, dm.dependencies = some ds →
    m.dependencies.isSome = true ∧
      ∀ d ∈ ds, hasDepKey (depsOf m) d.module_name = true) ∧
  (∀ cs, dm.capabilities = some cs →
    m.capabilities.isSome = true ∧ ∀ c ∈ cs, c ∈ capsOf m)

/-- A covered dependency manifest makes the merge step the identity. -/
theorem mergeStep_id (m dm : Manifest) (h : covers m dm) :
    mergeStep m dm = m := by
  obtain ⟨hd, hc⟩ := h
  rcases m with ⟨fv, mdeps, mcaps, mrd⟩
  unfold mergeStep
  cases hdm : dm.dependencies with
  | none =>
    cases hcm : dm.capabilities with
    | none => rfl
    | some cs =>
      obtain ⟨hsome, hmem⟩ := hc cs hcm
      obtain ⟨l, hl⟩ := Option.isSome_iff_exists.mp (by simpa using hsome)
      subst hl
      have hid : addCaps l cs = l := addCaps_id _ _ (by simpa [capsOf] using hmem)
      simp [hid]
  | some ds =>
    obtain ⟨hsomed, hmemd⟩ := hd ds hdm
    obtain ⟨ld, hld⟩ := Option.isSome_iff_exists.mp (by simpa using hsomed)
    subst hld
    have hidd : addDeps ld ds = ld := addDeps_id _ _ (by simpa [depsOf] using hmemd)
    cases hcm : dm.capabilities with
    | none => simp [depsOf, hidd]
    | some cs =>
      obtain ⟨hsome, hmem⟩ := hc cs hcm
      obtain ⟨l, hl⟩ := Option.isSome_iff_exists.mp (by simpa using hsome)
      subst hl
      have hid : addCaps l cs = l := addCaps_id _ _ (by simpa [capsOf] using hmem)
      simp [depsOf, capsOf, hidd, hid]

/-- Covering survives a further merge step: fields only gain entries. -/
theorem covers_mergeStep (m dm dm2 : Manifest) (h : covers m dm) :
    covers (mergeStep m dm2) dm := by
  obtain ⟨hd, hc⟩ := h
  constructor
  · intro ds hds
    obtain ⟨hsome, hmem⟩ := hd ds hds
    refine ⟨depsSome_mergeStep m dm2 hsome, ?_⟩
    intro d hdmem
    rw [depsOf_mergeStep]
    cases dm2.dependencies with
    | none => exact hmem d hdmem
    | some ds2 => exact hasDepKey_addDeps _ ds2 _ (hmem d hdmem)
  · intro cs hcs
    obtain ⟨hsome, hmem⟩ := hc cs hcs
    refine ⟨capsSome_mergeStep m dm2 hsome, ?_⟩
    intro c hcmem
    rw [capsOf_mergeStep]
    cases dm2.capabilities with
    | none => exact hmem c hcmem
    | some cs2 => exact mem_addCaps _ cs2 c (hmem c hcmem)

/-- After its own merge step a dependency manifest is covered. -/
theorem mergeStep_covers_self (m dm : Manifest) :
    covers (mergeStep m dm) dm := by
  constructor
  · intro ds hds
    refine ⟨depsSome_mergeStep_self m dm ds hds, ?_⟩
    intro d hdmem
    rw [depsOf_mergeStep, hds]
    exact addDeps_covers (depsOf m) ds d hdmem
  · intro cs hcs
    refine ⟨capsSome_mergeStep_self m dm cs hcs, ?_⟩
    intro c hcmem
    rw [capsOf_mergeStep, hcs]
    exact addCaps_covers (capsOf m) cs c hcmem

/-- Covering survives the whole merge fold. -/
theorem covers_mergeManifest (m dm : Manifest) (L : List Manifest)
    (h : covers m dm) : covers (mergeManifest m L) dm := by
  induction L generalizing m with
  | nil => exact h
  | cons dm2 rest ih => exact ih (mergeStep m dm2) (covers_mergeStep m dm dm2 h)

/-- After the merge every processed dependency manifest is covered. -/
theorem mergeManifest_covers (m : Manifest) (L : List Manifest) :
    ∀ dm ∈ L, covers (mergeManifest m L) dm := by
  induction L generalizing m with
  | nil => intro dm hdm; cases hdm
  | cons dm2 rest ih =>
    intro dm hdm
    rcases List.mem_cons.mp hdm with he | hm
    · subst he
      exact covers_mergeManifest (mergeStep m dm) dm rest
        (mergeStep_covers_self m dm)
    · exact ih (mergeStep m dm2) dm hm

/-- A merge over manifests that are all covered is the identity. -/
theorem mergeManifest_id (m : Manifest) (L : List Manifest)
    (h : ∀ dm ∈ L, covers m dm) : mergeManifest m L = m := by
  induction L with
  | nil => rfl
  | cons dm rest ih =>
    show mergeManifest (mergeStep m dm) rest = m
    rw [mergeStep_id m dm (h dm (List.mem_cons_self dm rest))]
    exact ih (fun dm2 hdm2 => h dm2 (List.mem_cons_of_mem dm hdm2))

/-- The merge preserves freedom from duplicate dependency keys. -/
theorem mergeManifest_nodup (L : List Manifest) :
    ∀ m, nodupKeys (depsOf m) → nodupKeys (depsOf (mergeManifest m L)) := by
  induction L with
  | nil => exact fun m h => h
  | cons dm rest ih =>
    intro m h
    show nodupKeys (depsOf (mergeManifest (mergeStep m dm) rest))
    apply ih
    rw [depsOf_mergeStep]
    cases dm.dependencies with
    | none => exact h
    | some ds => exact addDeps_nodup _ ds h

/-- The merge appends a block of fresh, pairwise distinct capabilities to
the host capability list. -/
theorem mergeManifest_caps_decomp (L : List Manifest) :
    ∀ m, ∃ add, capsOf (mergeManifest m L) = capsOf m ++ add ∧
      add.Nodup ∧ ∀ c ∈ add, c ∉ capsOf m := by
  induction L with
  | nil => exact fun m => ⟨[], by simp [mergeManifest], by simp, by simp⟩
  | cons dm rest ih =>
    intro m
    obtain ⟨add2, h1, h2, h3⟩ := ih (mergeStep m dm)
    have hstep : ∃ add1, capsOf (mergeStep m dm) = capsOf m ++ add1 ∧
        add1.Nodup ∧ ∀ c ∈ add1, c ∉ capsOf m := by
      rw [capsOf_mergeStep]
      cases dm.capabilities with
      | none => exact ⟨[], by simp, by simp, by simp⟩
      | some cs => exact addCaps_decomp cs (capsOf m)
    obtain ⟨add1, g1, g2, g3⟩ := hstep
    refine ⟨add1 ++ add2, ?_, ?_, ?_⟩
    · show capsOf (mergeManifest (mergeStep m dm) rest) =
        capsOf m ++ (add1 ++ add2)
      rw [h1, g1, List.append_assoc]
    · rw [List.nodup_append]
      refine ⟨g2, h2, ?_⟩
      intro x hx1 hx2
      have hn := h3 x hx2
      rw [g1] at hn
      exact hn (List.mem_append_right _ hx1)
    · intro c hc
      rcases List.mem_append.mp hc with hin | hin
      · exact g3 c hin
      · intro hmem
        have hn := h3 c hin
        rw [g1] at hn
        exact hn (List.mem_append_left _ hmem)

/-- First sample external dependency entry, key a version one. -/
def depA1 : ManifestDependency := { module_name := "a", version := "1" }

/-- Second sample external dependency entry, same key a, version two. -/
def depA2 : ManifestDependency := { module_name := "a", version := "2" }

/-- Sample external dependency entry with key b. -/
def depB : ManifestDependency := { module_name := "b", version := "1" }

/-- Host manifest whose own dependency list already has two entries with
the same module name. -/
def dupHost : Manifest :=
  { format_version := 2, dependencies := some [depA1, depA2],
    capabilities := none, rubedo_dependencies := none }

/-- C3 counterexample: the merge leaves a host manifest that already
contains two dependency entries with the same module name untouched, so
the merged dependencies list does contain two entries with the same
module name, against the unconditional reading of the claim. -/
theorem mergeManifest_dup_counterexample :
    depsOf (mergeManifest dupHost []) = [depA1, depA2] ∧
    depA1.module_name = depA2.module_name ∧ depA1 ≠ depA2 ∧
    ¬ nodupKeys (depsOf (mergeManifest dupHost [])) := by
  refine ⟨rfl, rfl, by decide, ?_⟩
  simp [mergeManifest, dupHost, depsOf, nodupKeys, depKeys, depA1, depA2]

/-- C3 (amended): merging twice equals merging once; the merge preserves
freedom from duplicate dependency keys of the host list, and every
capability it adds is fresh and added only once. -/
theorem mergeManifest_spec (m : Manifest) (L : List Manifest) :
    mergeManifest (mergeManifest m L) L = mergeManifest m L ∧
    (nodupKeys (depsOf m) → nodupKeys (depsOf (mergeManifest m L))) ∧
    (∃ add, capsOf (mergeManifest m L) = capsOf m ++ add ∧ add.Nodup ∧
      ∀ c ∈ add, c ∉ capsOf m) :=
  ⟨mergeManifest_id _ L (mergeManifest_covers m L),
   fun h => mergeManifest_nodup L m h,
   mergeManifest_caps_decomp L m⟩

/-- Host manifest with one dependency entry and one capability. -/
def capHost : Manifest :=
  { format_version := 2, dependencies := some [depA1],
    capabilities := some ["script_eval"], rubedo_dependencies := none }

/-- Dependency manifest redeclaring the known capability, adding a new
one and a new external dependency. -/
def capDepManifest : Manifest :=
  { format_version := 1, dependencies := some [depB],
    capabilities := some ["script_eval", "experimental_ui"],
    rubedo_dependencies := none }

/-- Witness for C3 on a concrete host and one dependency manifest. -/
theorem mergeManifest_spec_witness :
    mergeManifest (mergeManifest capHost [capDepManifest]) [capDepManifest]
      = mergeManifest capHost [capDepManifest] ∧
    nodupKeys (depsOf (mergeManifest capHost [capDepManifest])) :=
  ⟨(mergeManifest_spec capHost [capDepManifest]).1,
   (mergeManifest_spec capHost [capDepManifest]).2.1
     (by unfold nodupKeys; decide)⟩

/-! ## Asset linker lemmas -/

/-- The three possible outcomes of one copyDependencyAssets iteration:
the exit, a skip, or a namespaced copy of a non excluded category. -/
theorem copyDirStep_cases (out mn dir : String) (pres : Bool) :
    copyDirStep out mn dir pres = none ∨
    copyDirStep out mn dir pres = some [] ∨
    (copyDirStep out mn dir pres = some [(dir, [out, dir, repoOf mn])] ∧
      dir ≠ "texts" ∧ dir ≠ "entities" ∧ dir ≠ "functions") := by
  unfold copyDirStep
  by_cases hp : (!pres) = true
  · rw [if_pos hp]
    exact Or.inr (Or.inl rfl)
  · rw [if_neg hp]
    by_cases hg : (orgOf mn = "" || repoOf mn = "") = true
    · rw [if_pos hg]
      exact Or.inl rfl
    · rw [if_neg hg]
      by_cases ht : dir = "texts"
      · rw [if_pos ht]
        exact Or.inr (Or.inl rfl)
      · rw [if_neg ht]
        by_cases he : dir = "entities"
        · rw [if_pos he]
          exact Or.inr (Or.inl rfl)
        · rw [if_neg he]
          by_cases hf : dir = "functions"
          · rw [if_pos hf]
            exact Or.inr (Or.inl rfl)
          · rw [if_neg hf]
            exact Or.inr (Or.inr ⟨rfl, ht, he, hf⟩)

/-- With a well formed module name the copy iteration never exits. -/
theorem copyDirStep_ne_none (out mn dir : String) (pres : Bool)
    (h1 : orgOf mn ≠ "") (h2 : repoOf mn ≠ "") :
    copyDirStep out mn dir pres ≠ none := by
  unfold copyDirStep
  split
  · simp
  · split
    · next hg =>
      exfalso
      rw [Bool.or_eq_true] at hg
      rcases hg with hg | hg
      · exact h1 (by simpa using hg)
      · exact h2 (by simpa using hg)
    · split
      · simp
      · split
        · simp
        · split <;> simp

/-- With a well formed module name the copy loop never exits. -/
theorem copyModuleAssetsAux_isSome (out mn : String) (p : String → Bool)
    (h1 : orgOf mn ≠ "") (h2 : repoOf mn ≠ "") :
    ∀ dirs, (copyModuleAssetsAux out mn p dirs).isSome = true := by
  intro dirs
  induction dirs with
  | nil => rfl
  | cons dir rest ih =>
    unfold copyModuleAssetsAux
    rcases ho : copyDirStep out mn dir (p dir) with _ | l
    · exact absurd ho (copyDirStep_ne_none out mn dir (p dir) h1 h2)
    · cases haux : copyModuleAssetsAux out mn p rest with
      | none =>
        rw [haux] at ih
        exact absurd ih (by simp)
      | some r => simp

/-- Every copy the copyDependencyAssets loop performs targets a category
of the processed list other than texts, entities and functions, at the
destination namespaced by the repository segment. -/
theorem copyModuleAssetsAux_mem (out mn : String) (p : String → Bool) :
    ∀ dirs, ∀ e ∈ (copyModuleAssetsAux out mn p dirs).getD [],
      e.1 ∈ dirs ∧ e.1 ≠ "texts" ∧ e.1 ≠ "entities" ∧ e.1 ≠ "functions" ∧
      e.2 = [out, e.1, repoOf mn] := by
  intro dirs
  induction dirs with
  | nil =>
    intro e he
    simp [copyModuleAssetsAux] at he
  | cons dir rest ih =>
    intro e he
    unfold copyModuleAssetsAux at he
    rcases copyDirStep_cases out mn dir (p dir) with hc | hc | ⟨hc, ht, hen, hf⟩ <;>
      rw [hc] at he
    · simp at he
    · cases haux : copyModuleAssetsAux out mn p rest with
      | none =>
        rw [haux] at he
        simp at he
      | some r =>
        rw [haux] at he
        simp only [Option.map_some, List.nil_append, Option.getD_some] at he
        obtain ⟨h1, h2, h3, h4, h5⟩ := ih e (by rw [haux]; exact he)
        exact ⟨List.mem_cons_of_mem _ h1, h2, h3, h4, h5⟩
    · cases haux : copyModuleAssetsAux out mn p rest with
      | none =>
        rw [haux] at he
        simp at he
      | some r =>
        rw [haux] at he
        simp only [Option.map_some, List.singleton_append,
          Option.getD_some] at he
        rcases List.mem_cons.mp he with heq | hm
        · subst heq
          exact ⟨List.mem_cons_self _ _, ht, hen, hf, rfl⟩
        · obtain ⟨h1, h2, h3, h4, h5⟩ := ih e (by rw [haux]; exact hm)
          exact ⟨List.mem_cons_of_mem _ h1, h2, h3, h4, h5⟩

/-- Every present category of the processed list other than texts,
entities and functions is copied by the copyDependencyAssets loop. -/
theorem copyModuleAssetsAux_covers (out mn : String) (p : String → Bool)
    (h1 : orgOf mn ≠ "") (h2 : repoOf mn ≠ "") :
    ∀ dirs dir, dir ∈ dirs → p dir = true → dir ≠ "texts" →
      dir ≠ "entities" → dir ≠ "functions" →
      (dir, [out, dir, repoOf mn]) ∈
        (copyModuleAssetsAux out mn p dirs).getD [] := by
  intro dirs
  induction dirs with
  | nil =>
    intro dir hd
    cases hd
  | cons d0 rest ih =>
    intro dir hd hp ht hen hf
    unfold copyModuleAssetsAux
    rcases List.mem_cons.mp hd with heq | hm
    · subst heq
      have hstep : copyDirStep out mn dir (p dir) =
          some [(dir, [out, dir, repoOf mn])] := by
        simp [copyDirStep, hp, h1, h2, ht, hen, hf]
      rw [hstep]
      cases haux : copyModuleAssetsAux out mn p rest with
      | none =>
        have := copyModuleAssetsAux_isSome out mn p h1 h2 rest
        rw [haux] at this
        exact absurd this (by simp)
      | some r => simp
    · rcases ho : copyDirStep out mn d0 (p d0) with _ | l
      · exact absurd ho (copyDirStep_ne_none out mn d0 (p d0) h1 h2)
      · cases haux : copyModuleAssetsAux out mn p rest with
        | none =>
          have := copyModuleAssetsAux_isSome out mn p h1 h2 rest
          rw [haux] at this
          exact absurd this (by simp)
        | some r =>
          have hmem := ih dir hm hp ht hen hf
          rw [haux] at hmem
          simp only [Option.getD_some] at hmem
          simp only [Option.map_some, Option.getD_some]
          exact List.mem_append_right _ hmem

/-- The three possible outcomes of one linkDependencyAssets iteration:
the exit, a skip, or a namespaced copy of any category but texts. -/
theorem linkDirStep_cases (root mn dir : String) (pres : Bool) :
    linkDirStep root mn dir pres = none ∨
    linkDirStep root mn dir pres = some [] ∨
    (linkDirStep root mn dir pres = some [(dir, [root, dir, repoOf mn])] ∧
      dir ≠ "texts") := by
  unfold linkDirStep
  by_cases ht : dir = "texts"
  · rw [if_pos ht]
    exact Or.inr (Or.inl rfl)
  · rw [if_neg ht]
    by_cases hp : (!pres) = true
    · rw [if_pos hp]
      exact Or.inr (Or.inl rfl)
    · rw [if_neg hp]
      by_cases hg : (orgOf mn = "" || repoOf mn = "") = true
      · rw [if_pos hg]
        exact Or.inl rfl
      · rw [if_neg hg]
        exact Or.inr (Or.inr ⟨rfl, ht⟩)

/-- With a well formed module name the link iteration never exits. -/
theorem linkDirStep_ne_none (root mn dir : String) (pres : Bool)
    (h1 : orgOf mn ≠ "") (h2 : repoOf mn ≠ "") :
    linkDirStep root mn dir pres ≠ none := by
  unfold linkDirStep
  split
  · simp
  · split
    · simp
    · split
      · next hg =>
        exfalso
        rw [Bool.or_eq_true] at hg
        rcases hg with hg | hg
        · exact h1 (by simpa using hg)
        · exact h2 (by simpa using hg)
      · simp

/-- With a well formed module name the link loop never exits. -/
theorem linkModuleAssetsAux_isSome (root mn : String) (p : String → Bool)
    (h1 : orgOf mn ≠ "") (h2 : repoOf mn ≠ "") :
    ∀ dirs, (linkModuleAssetsAux root mn p dirs).isSome = true := by
  intro dirs
  induction dirs with
  | nil => rfl
  | cons dir rest ih =>
    unfold linkModuleAssetsAux
    rcases ho : linkDirStep root mn dir (p dir) with _ | l
    · exact absurd ho (linkDirStep_ne_none root mn dir (p dir) h1 h2)
    · cases haux : linkModuleAssetsAux root mn p rest with
      | none =>
        rw [haux] at ih
        exact absurd ih (by simp)
      | some r => simp

/-- Every copy the linkDependencyAssets loop performs targets a category
of the processed list other than texts, at the destination namespaced by
the repository segment. -/
theorem linkModuleAssetsAux_mem (root mn : String) (p : String → Bool) :
    ∀ dirs, ∀ e ∈ (linkModuleAssetsAux root mn p dirs).getD [],
      e.1 ∈ dirs ∧ e.1 ≠ "texts" ∧ e.2 = [root, e.1, repoOf mn] := by
  intro dirs
  induction dirs with
  | nil =>
    intro e he
    simp [linkModuleAssetsAux] at he
  | cons dir rest ih =>
    intro e he
    unfold linkModuleAssetsAux at he
    rcases linkDirStep_cases root mn dir (p dir) with hc | hc | ⟨hc, ht⟩ <;>
      rw [hc] at he
    · simp at he
    · cases haux : linkModuleAssetsAux root mn p rest with
      | none =>
        rw [haux] at he
        simp at he
      | some r =>
        rw [haux] at he
        simp only [Option.map_some, List.nil_append, Option.getD_some] at he
        obtain ⟨h1, h2, h3⟩ := ih e (by rw [haux]; exact he)
        exact ⟨List.mem_cons_of_mem _ h1, h2, h3⟩
    · cases haux : linkModuleAssetsAux root mn p rest with
      | none =>
        rw [haux] at he
        simp at he
      | some r =>
        rw [haux] at he
        simp only [Option.map_some, List.singleton_append,
          Option.getD_some] at he
        rcases List.mem_cons.mp he with heq | hm
        · subst heq
          exact ⟨List.mem_cons_self _ _, ht, rfl⟩
        · obtain ⟨h1, h2, h3⟩ := ih e (by rw [haux]; exact hm)
          exact ⟨List.mem_cons_of_mem _ h1, h2, h3⟩

/-- Every present category of the processed list other than texts is
copied by the linkDependencyAssets loop. -/
theorem linkModuleAssetsAux_covers (root mn : String) (p : String → Bool)
    (h1 : orgOf mn ≠ "") (h2 : repoOf mn ≠ "") :
    ∀ dirs dir, dir ∈ dirs → p dir = true → dir ≠ "texts" →
      (dir, [root, dir, repoOf mn]) ∈
        (linkModuleAssetsAux root mn p dirs).getD [] := by
  intro dirs
  induction dirs with
  | nil =>
    intro dir hd
    cases hd
  | cons d0 rest ih =>
    intro dir hd hp ht
    unfold linkModuleAssetsAux
    rcases List.mem_cons.mp hd with heq | hm
    · subst heq
      have hstep : linkDirStep root mn dir (p dir) =
          some [(dir, [root, dir, repoOf mn])] := by
        simp [linkDirStep, hp, h1, h2, ht]
      rw [hstep]
      cases haux : linkModuleAssetsAux root mn p rest with
      | none =>
        have := linkModuleAssetsAux_isSome root mn p h1 h2 rest
        rw [haux] at this
        exact absurd this (by simp)
      | some r => simp
    · rcases ho : linkDirStep root mn d0 (p d0) with _ | l
      · exact absurd ho (linkDirStep_ne_none root mn d0 (p d0) h1 h2)
      · cases haux : linkModuleAssetsAux root mn p rest with
        | none =>
          have := linkModuleAssetsAux_isSome root mn p h1 h2 rest
          rw [haux] at this
          exact absurd this (by simp)
        | some r =>
          have hmem := ih dir hm hp ht
          rw [haux] at hmem
          simp only [Option.getD_some] at hmem
          simp only [Option.map_some, Option.getD_some]
          exact List.mem_append_right _ hmem

/-- C4 counterexample: two dependencies with different identities but the
same repository segment are copied to the same destination path, because
the namespace uses only the repository name and not the owner. -/
theorem assetNamespace_counterexample :
    copyModuleAssets "build" "alice/lib" (fun d => d == "recipes") =
      some [("recipes", ["build", "recipes", "lib"])] ∧
    copyModuleAssets "build" "bob/lib" (fun d => d == "recipes") =
      some [("recipes", ["build", "recipes", "lib"])] ∧
    linkModuleAssets "proj" "alice/lib" (fun d => d == "recipes") =
      some [("recipes", ["proj", "recipes", "lib"])] ∧
    linkModuleAssets "proj" "bob/lib" (fun d => d == "recipes") =
      some [("recipes", ["proj", "recipes", "lib"])] ∧
    ("alice/lib" : String) ≠ "bob/lib" := by
  refine ⟨rfl, rfl, rfl, rfl, by decide⟩

/-- C4 (amended): two dependencies whose repository segments differ are
never copied to the same destination path, in either linker revision. -/
theorem assetNamespace_by_repo (out root mn1 mn2 : String)
    (p1 p2 q1 q2 : String → Bool) (h : repoOf mn1 ≠ repoOf mn2) :
    (∀ e1 ∈ (copyModuleAssets out mn1 p1).getD [],
      ∀ e2 ∈ (copyModuleAssets out mn2 p2).getD [], e1.2 ≠ e2.2) ∧
    (∀ e1 ∈ (linkModuleAssets root mn1 q1).getD [],
      ∀ e2 ∈ (linkModuleAssets root mn2 q2).getD [], e1.2 ≠ e2.2) := by
  constructor
  · intro e1 he1 e2 he2
    obtain ⟨_, _, _, _, h5⟩ :=
      copyModuleAssetsAux_mem out mn1 p1 assetDirs e1 he1
    obtain ⟨_, _, _, _, g5⟩ :=
      copyModuleAssetsAux_mem out mn2 p2 assetDirs e2 he2
    rw [h5, g5]
    intro heq
    injection heq with heq1 heq2
    injection heq2 with heq3 heq4
    injection heq4 with heq5 heq6
    exact h heq5
  · intro e1 he1 e2 he2
    obtain ⟨_, _, h3⟩ :=
      linkModuleAssetsAux_mem root mn1 q1 assetDirs e1 he1
    obtain ⟨_, _, g3⟩ :=
      linkModuleAssetsAux_mem root mn2 q2 assetDirs e2 he2
    rw [h3, g3]
    intro heq
    injection heq with heq1 heq2
    injection heq2 with heq3 heq4
    injection heq4 with heq5 heq6
    exact h heq5

/-- Witness for the amended C4 on two modules with distinct repository
segments. -/
theorem assetNamespace_by_repo_witness :
    (["build", "recipes", "liba"] : List String) ≠
      ["build", "recipes", "libb"] :=
  (assetNamespace_by_repo "build" "proj" "alice/liba" "bob/libb"
      (fun d => d == "recipes") (fun d => d == "recipes")
      (fun d => d == "recipes") (fun d => d == "recipes") (by decide)).1
    ("recipes", ["build", "recipes", "liba"]) (by decide)
    ("recipes", ["build", "recipes", "libb"]) (by decide)

/-- Dependency used in the linker counterexample. -/
def aliceDep : RubedoDependency :=
  { module_name := "alice/lib", version := "1.0.0", localPath := none }

/-- C7 counterexample: the linkDependencyAssets revision does copy a
present entities category into the output, so entities is not skipped by
every run of the asset linker. -/
theorem linker_entities_counterexample :
    linkDependencyAssets "proj" [aliceDep] (fun _ d => d == "entities") =
      some [("entities", ["proj", "entities", "lib"])] ∧
    ("entities", ["proj", "entities", "lib"]) ∈
      (linkDependencyAssets "proj" [aliceDep]
        (fun _ d => d == "entities")).getD [] := by
  refine ⟨rfl, by decide⟩

/-- C7 (amended): the texts category is never copied by either linker
revision; copyDependencyAssets also skips entities and functions; every
other present category is namespaced copied, and linkDependencyAssets
copies every present category but texts, entities and functions
included. -/
theorem linker_skip_spec (out root mn : String) (present : String → Bool) :
    (∀ e ∈ (copyModuleAssets out mn present).getD [],
      e.1 ≠ "texts" ∧ e.1 ≠ "entities" ∧ e.1 ≠ "functions") ∧
    (∀ e ∈ (linkModuleAssets root mn present).getD [], e.1 ≠ "texts") ∧
    (orgOf mn ≠ "" → repoOf mn ≠ "" →
      ∀ dir ∈ assetDirs, present dir = true →
        (dir ≠ "texts" → dir ≠ "entities" → dir ≠ "functions" →
          (dir, [out, dir, repoOf mn]) ∈
            (copyModuleAssets out mn present).getD []) ∧
        (dir ≠ "texts" →
          (dir, [root, dir, repoOf mn]) ∈
            (linkModuleAssets root mn present).getD [])) := by
  refine ⟨?_, ?_, ?_⟩
  · intro e he
    obtain ⟨_, h2, h3, h4, _⟩ :=
      copyModuleAssetsAux_mem out mn present assetDirs e he
    exact ⟨h2, h3, h4⟩
  · intro e he
    obtain ⟨_, h2, _⟩ :=
      linkModuleAssetsAux_mem root mn present assetDirs e he
    exact h2
  · intro h1 h2 dir hdir hp
    exact ⟨fun ht he hf =>
        copyModuleAssetsAux_covers out mn present h1 h2 assetDirs dir
          hdir hp ht he hf,
      fun ht =>
        linkModuleAssetsAux_covers root mn present h1 h2 assetDirs dir
          hdir hp ht⟩

/-- Witness for the amended C7: a present recipes category is copied by
both linker revisions. -/
theorem linker_skip_spec_witness :
    ("recipes", ["build", "recipes", "lib"]) ∈
      (copyModuleAssets "build" "alice/lib"
        (fun d => d == "recipes")).getD [] ∧
    ("recipes", ["proj", "recipes", "lib"]) ∈
      (linkModuleAssets "proj" "alice/lib"
        (fun d => d == "recipes")).getD [] :=
  ⟨((linker_skip_spec "build" "proj" "alice/lib"
        (fun d => d == "recipes")).2.2 (by decide) (by decide)
      "recipes" (by decide) (by decide)).1 (by decide) (by decide)
      (by decide),
   ((linker_skip_spec "build" "proj" "alice/lib"
        (fun d => d == "recipes")).2.2 (by decide) (by decide)
      "recipes" (by decide) (by decide)).2 (by decide)⟩

/-! ## Tag staleness -/

/-- A successful find is the first hit: the list splits at the found
element and the predicate fails on everything before it. -/
theorem find?_decomp (l : List String) (p : String → Bool) (x : String) :
    l.find? p = some x ↔
      ∃ pre post, l = pre ++ x :: post ∧ p x = true ∧
        ∀ t ∈ pre, p t = false := by
  induction l with
  | nil =>
    constructor
    · intro h
      simp [List.find?] at h
    · rintro ⟨pre, post, hl, hpx, hpre⟩
      exact absurd hl (by simp)
  | cons a l ih =>
    by_cases hpa : p a = true
    · rw [List.find?_cons_of_pos l hpa]
      constructor
      · intro h
        have ha : a = x := Option.some.inj h
        subst ha
        exact ⟨[], l, rfl, hpa, by simp⟩
      · rintro ⟨pre, post, hl, hpx, hpre⟩
        cases pre with
        | nil =>
          simp only [List.nil_append, List.cons.injEq] at hl
          rw [hl.1]
        | cons b pre2 =>
          simp only [List.cons_append, List.cons.injEq] at hl
          have hb : p b = false := hpre b (List.mem_cons_self b pre2)
          rw [← hl.1] at hb
          rw [hb] at hpa
          exact absurd hpa (by simp)
    · rw [List.find?_cons_of_neg l hpa]
      rw [ih]
      constructor
      · rintro ⟨pre, post, hl, hpx, hpre⟩
        refine ⟨a :: pre, post, by rw [hl, List.cons_append], hpx, ?_⟩
        intro t ht
        rcases List.mem_cons.mp ht with he | hm
        · subst he
          exact Bool.not_eq_true _ ▸ Bool.of_not_eq_true hpa
        · exact hpre t hm
      · rintro ⟨pre, post, hl, hpx, hpre⟩
        cases pre with
        | nil =>
          simp only [List.nil_append, List.cons.injEq] at hl
          rw [hl.1] at hpa
          exact absurd hpx hpa
        | cons b pre2 =>
          simp only [List.cons_append, List.cons.injEq] at hl
          exact ⟨pre2, post, hl.2, hpx,
            fun t ht => hpre t (List.mem_cons_of_mem b ht)⟩

/-- Repository where a tag that enumerates earlier resolves to the same
commit as the declared release tag. -/
def twoTagRepo : GitRepo :=
  { tags := ["a", "v1.0.0"], resolve := fun _ => "c0ffee",
    head := "c0ffee", currentBranch := "main", behind := 0 }

/-- Dependency declared at release version one. -/
def tagDep : RubedoDependency :=
  { module_name := "owner/lib", version := "1.0.0", localPath := none }

/-- C5 counterexample: the checked out commit equals the commit the
release tag resolves to, yet the check reports the dependency stale,
because another tag that enumerates earlier resolves to the same commit
and is picked as the current tag. -/
theorem tagStaleness_counterexample :
    matchesTag tagDep.version = true ∧
    twoTagRepo.resolve ("v" ++ tagDep.version) = twoTagRepo.head ∧
    hasUpdates tagDep { path := PathState.realDir, repo := twoTagRepo } =
      true := by
  refine ⟨by decide, rfl, by decide⟩

/-- C5 (amended): for a tag version the check reports not stale exactly
when v version is the first enumerated tag resolving to the checked out
commit; not stale still implies the checked out commit equals that tag's
commit, but the converse fails when an earlier enumerated tag resolves to
the same commit. -/
theorem tagStaleness_spec (g : GitRepo) (v : String)
    (hv : matchesTag v = true) :
    (hasUpdatesGit g v = false ↔
      ∃ pre post, g.tags = pre ++ ("v" ++ v) :: post ∧
        g.resolve ("v" ++ v) = g.head ∧
        ∀ t ∈ pre, g.resolve t ≠ g.head) ∧
    (hasUpdatesGit g v = false → g.resolve ("v" ++ v) = g.head) := by
  have hlat : v ≠ "latest" := by
    intro he
    rw [he] at hv
    exact absurd hv (by decide)
  have hbranch : hasUpdatesGit g v =
      decide (getCurrentTag g ≠ some ("v" ++ v)) := by
    simp [hasUpdatesGit, hlat, hv]
  have hiff : hasUpdatesGit g v = false ↔
      getCurrentTag g = some ("v" ++ v) := by
    rw [hbranch, decide_eq_false_iff_not, not_ne_iff]
  constructor
  · rw [hiff]
    unfold getCurrentTag
    rw [find?_decomp]
    constructor
    · rintro ⟨pre, post, h1, h2, h3⟩
      refine ⟨pre, post, h1, by simpa using h2, ?_⟩
      intro t ht
      have := h3 t ht
      simpa using this
    · rintro ⟨pre, post, h1, h2, h3⟩
      refine ⟨pre, post, h1, by simpa using h2, ?_⟩
      intro t ht
      have := h3 t ht
      simpa using this
  · intro hfalse
    rw [hiff] at hfalse
    have := List.find?_some hfalse
    simpa using this

/-- Repository with the release tag alone, for the C5 witness. -/
def oneTagRepo : GitRepo :=
  { tags := ["v1.0.0"],
    resolve := fun t => if t == "v1.0.0" then "c0ffee" else "deadbe",
    head := "c0ffee", currentBranch := "main", behind := 0 }

/-- Witness for the amended C5: with the release tag first in the
enumeration the check reports not stale and the commit matches. -/
theorem tagStaleness_spec_witness :
    hasUpdatesGit oneTagRepo "1.0.0" = false ∧
    oneTagRepo.resolve ("v" ++ "1.0.0") = oneTagRepo.head :=
  ⟨(tagStaleness_spec oneTagRepo "1.0.0" (by decide)).1.mpr
      ⟨[], [], rfl, rfl, by simp⟩,
   (tagStaleness_spec oneTagRepo "1.0.0" (by decide)).2 (by decide)⟩

/-! ## Stale link replacement on update -/

/-- C8: updateDependency on a store path that holds a leftover link for a
dependency now declared without a local override deletes the link and
replaces it with a fresh clone checked out at the declared version, with
the store path ending as a real checkout rather than a link. -/
theorem update_replaces_stale_link (fuel : Nat) (envDir : Bool)
    (dep : RubedoDependency) (st : ModuleState) (t : String)
    (hl : st.path = PathState.link t) (hn : dep.localPath = none)
    (ho : orgOf dep.module_name ≠ "") :
    updateDep (fuel + 2) envDir dep st =
      some (PathState.realDir,
        FsOp.removeDir :: FsOp.cloneRepo ::
          ((checkoutVersionOps st.repo.currentBranch dep).map FsOp.git ++
            npmIf envDir)) := by
  rcases st with ⟨p, g⟩
  simp only at hl
  subst hl
  show updateDep (Nat.succ (Nat.succ fuel)) envDir dep
      ⟨PathState.link t, g⟩ = _
  unfold updateDep
  simp only [hn]
  unfold cloneDep
  rw [if_neg ho, hn]
  simp

/-- Witness for C8: a concrete leftover link is replaced by a clone and a
tag checkout. -/
theorem update_replaces_stale_link_witness :
    updateDep 2 false aliceDep
      { path := PathState.link "/tmp/lib", repo := sampleRepo } =
      some (PathState.realDir,
        [FsOp.removeDir, FsOp.cloneRepo,
         FsOp.git (GitOp.checkout "tags/v1.0.0")]) :=
  update_replaces_stale_link 0 false aliceDep
    { path := PathState.link "/tmp/lib", repo := sampleRepo } "/tmp/lib"
    rfl rfl (by decide)

end Rubedo
